import Mathlib

/-!
Verification development for the `Tenxten` strategy of the draughts engine
(`src/strategies.py`).  The strategy consists of three parts:

* `evaluate_position` — a static material/king evaluator (lines 127–137);
* `recursive_search`  — a depth-bounded minimax with a transposition table
  keyed by a hash of the game's FEN string (lines 139–168);
* `search`            — the root driver that scores each root move at depth 3
  and picks the first move attaining the maximal score (lines 170–188).

The external rules library (`draughts`) is not part of the repository; its
`GameState` interface is modelled from the specification's collaborator
contract (spec §3 and §6): `legal_moves()` returns the pair
`(quiet_moves, capture_moves)`, `copy()` is an independent deep copy,
`push(move)` produces the successor state, `has_player_won(player)` reports a
win, and `get_fen()` is the canonical serialization used for hashing.  The
64-bit CityHash of the FEN is modelled as an arbitrary function
`h : String → Nat`, so hash collisions remain possible exactly as the spec
documents.  The mutable instance fields `self.counter` and
`self.transposition_table` are threaded explicitly as an `EngineState`.
-/

/-- A piece of the external board library: an owning player (one of two
identities, modelled as `Bool`) and a king/promotion flag. -/
structure Piece where
  player : Bool
  king : Bool

/-- Modelled from the spec: the external collaborator's `GameState` (spec §3,
§6).  A game is a finitely branching tree: a FEN serialization, the occupied
cells (`board.searcher.position_pieces`), the side to move
(`board.player_turn`), the quiet and capture move lists returned by
`legal_moves()`, the `has_player_won` predicate, and the successor state for
each move (`push`). -/
inductive Game where
  | mk (fen : String) (pieces : List (Nat × Piece)) (turn : Bool)
       (quiet : List Nat) (captures : List Nat)
       (won : Bool → Bool) (children : List (Nat × Game))

/-- The FEN serialization of the state (`game.get_fen()`). -/
def Game.get_fen : Game → String
  | .mk f _ _ _ _ _ _ => f

/-- The occupied cells of the board (`game.board.searcher.position_pieces`),
as a finite association list from cell number to piece. -/
def Game.position_pieces : Game → List (Nat × Piece)
  | .mk _ p _ _ _ _ _ => p

/-- The side to move (`game.board.player_turn`). -/
def Game.player_turn : Game → Bool
  | .mk _ _ t _ _ _ _ => t

/-- Modelled from the spec: `legal_moves()` returns the pair
`(quiet_moves, capture_moves)` (spec §6); the code always takes component 0. -/
def Game.legal_moves : Game → List Nat × List Nat
  | .mk _ _ _ q c _ _ => (q, c)

/-- The collaborator's `has_player_won(player)` predicate. -/
def Game.has_player_won : Game → Bool → Bool
  | .mk _ _ _ _ _ w _, p => w p

/-- The collaborator's `copy()`: an independent deep copy.  On the pure value
this is the value itself; the aliasing aspect is modelled separately by the
heap embedding below. -/
def Game.copy (g : Game) : Game := g

/-- The collaborator's `push(move)`: the successor state after playing
`move`.  Moves outside the recorded children leave the state unchanged (never
exercised: the engine only pushes enumerated legal moves). -/
def Game.push (g : Game) (m : Nat) : Game :=
  match g with
  | .mk _ _ _ _ _ _ ch => (List.lookup m ch).getD g

instance : Inhabited Game where
  default := .mk (String.mk []) [] true [] [] (fun _ => false) []

/-- The mutable instance fields of `Tenxten` threaded through the search:
`self.counter` (leaf evaluations performed) and `self.transposition_table`
(Python dict, modelled as an association list where insertion prepends and
lookup returns the most recent binding, matching dict overwrite semantics). -/
structure EngineState where
  counter : Nat
  transposition_table : List (Nat × Int)

/-- `Tenxten.evaluate_position` (src/strategies.py lines 127–137): sum over
the occupied cells of `evaluation_dict[piece.king] * (±1)` where the sign is
`+1` for the perspective player's pieces and `-1` otherwise, and
`evaluation_dict = {True: 4, False: 1}`; increments `self.counter`. -/
def evaluate_position (position : List (Nat × Piece)) (player_color : Bool)
    (st : EngineState) : Int × EngineState :=
  let evaluation_dict : Bool → Int := fun king => if king then 4 else 1
  let score := position.foldl
    (fun score fp =>
      let temp : Int := if fp.2.player = player_color then 1 else -1
      score + evaluation_dict fp.2.king * temp) 0
  (score, { st with counter := st.counter + 1 })

/-- Python's `max` on a list, defined for nonempty lists; the `[]` case (where
Python raises `ValueError`) is given a junk value and is guarded at every call
site exactly as the source's control flow guards it. -/
def pymax : List Int → Int
  | [] => 0
  | x :: xs => xs.foldl max x

/-- Python's `min` on a list, defined for nonempty lists, as `pymax`. -/
def pymin : List Int → Int
  | [] => 0
  | x :: xs => xs.foldl min x

/-- The child-scoring loop shared by `recursive_search` (lines 157–160) and
`search` (lines 175–178): for each move, build `new_game =
game.copy().push(move)`, score it with `f` (a partially applied
`recursive_search`), and append the score, threading the engine state. -/
def scoresLoop (f : Game → EngineState → Int × EngineState) (game : Game) :
    List Nat → EngineState → List Int × EngineState
  | [], st => ([], st)
  | move :: rest, st =>
    let new_game := (Game.copy game).push move
    let r := f new_game st
    let rs := scoresLoop f game rest r.2
    (r.1 :: rs.1, rs.2)

/-- `Tenxten.recursive_search` (src/strategies.py lines 139–168).
`key = CityHash64(game.get_fen())` is modelled as `h game.get_fen` for an
arbitrary hash `h`.  On a table hit the stored score is returned unchanged; at
depth 0 the position is evaluated and stored; with no legal (quiet) moves the
terminal scores ±100 are returned (without storing); otherwise every child is
searched at `depth - 1` and the max (own turn) or min (opponent's turn) of the
child scores is stored and returned. -/
def recursive_search (h : String → Nat) :
    Nat → Game → Bool → EngineState → Int × EngineState
  | depth, game, player_color, st =>
    let key := h game.get_fen
    match List.lookup key st.transposition_table with
    | some score => (score, st)
    | none =>
      match depth with
      | 0 =>
        let r := evaluate_position game.position_pieces player_color st
        (r.1, { r.2 with transposition_table :=
                  (key, r.1) :: r.2.transposition_table })
      | d + 1 =>
        match (Game.legal_moves game).1 with
        | [] =>
          if game.has_player_won player_color then (100, st) else (-100, st)
        | m :: rest =>
          let r := scoresLoop (fun g s => recursive_search h d g player_color s)
                     game (m :: rest) st
          if game.player_turn = player_color then
            let max_score := pymax r.1
            (max_score, { r.2 with transposition_table :=
                            (key, max_score) :: r.2.transposition_table })
          else
            let min_score := pymin r.1
            (min_score, { r.2 with transposition_table :=
                            (key, min_score) :: r.2.transposition_table })

/-- Errors of the root driver.  `valueError` models Python's `ValueError`
raised by `max()`/`list.index()` on an empty sequence.  `noLegalMoveError` is
modelled from the spec: §7 demands a distinct `NoLegalMoveError` for the
empty-root-moves precondition violation; the source never raises it. -/
inductive SearchError where
  | valueError
  | noLegalMoveError
deriving DecidableEq

/-- Python's `list.index(x)`: index of the first occurrence of `x`.  The `[]`
case (Python raises `ValueError`) is guarded at the call site: `search` only
reaches it with `x = pymax score_list ∈ score_list`. -/
def py_index (x : Int) : List Int → Nat
  | [] => 0
  | y :: ys => if y = x then 0 else py_index x ys + 1

/-- `Tenxten.search` (src/strategies.py lines 170–188): score every root move
at depth 3 from the mover's perspective, pick
`moves[score_list.index(max(score_list))]`, reset `self.counter` and
`self.transposition_table`, and return the move (the `PlayResult` envelope and
the diagnostic prints are engine-protocol glue, out of scope per spec §1).
With no root moves, `max(score_list)` raises `ValueError` on the empty list,
modelled as `Except.error .valueError`. -/
def search (h : String → Nat) (game : Game) (st : EngineState) :
    Except SearchError (Nat × EngineState) :=
  let player_color := game.player_turn
  let moves := (Game.legal_moves game).1
  let r := scoresLoop (fun g s => recursive_search h 3 g player_color s)
             game moves st
  match r.1 with
  | [] => Except.error SearchError.valueError
  | _ :: _ =>
    let best_move_index := py_index (pymax r.1) r.1
    let best_move := moves.getD best_move_index 0
    Except.ok (best_move, { r.2 with counter := 0, transposition_table := [] })

/-! ### Concrete states used by witnesses and counterexamples -/

/-- A concrete hash function standing in for CityHash64 in concrete runs. -/
def hh : String → Nat := String.length

/-- FEN of the terminal test game. -/
def fenT : String := "t"

/-- FEN of the one-move test game. -/
def fenO : String := "oo"

/-- A regular (non-king) piece of player `true`. -/
def pW : Piece := ⟨true, false⟩

/-- A terminal test game: one piece, no legal moves, player `true` has won. -/
def gTerm : Game := .mk fenT [(1, pW)] true [] [] (fun p => p) []

/-- A test game with exactly one quiet move (move 5) leading to `gTerm`. -/
def gOne : Game := .mk fenO [(1, pW)] true [5] [] (fun _ => false) [(5, gTerm)]

/-- The fresh engine state: zero counter, empty transposition table. -/
def st0 : EngineState := ⟨0, []⟩

/-- An engine state whose table already binds `gTerm`'s key (`hh fenT = 1`)
to the score 42. -/
def stHit : EngineState := ⟨0, [(1, 42)]⟩

/-! ### Helper lemmas about Python's max/min/index on lists -/

lemma foldl_max_le_self (xs : List Int) (a : Int) : a ≤ xs.foldl max a := by
  induction xs generalizing a with
  | nil => exact le_refl a
  | cons x xs ih => exact le_trans (le_max_left a x) (ih (max a x))

lemma le_foldl_max_of_mem {y : Int} {xs : List Int} (a : Int) (hy : y ∈ xs) :
    y ≤ xs.foldl max a := by
  induction xs generalizing a with
  | nil => cases hy
  | cons x xs ih =>
    rcases List.mem_cons.1 hy with rfl | hy
    · exact le_trans (le_max_right a y) (foldl_max_le_self xs (max a y))
    · exact ih (max a x) hy

lemma foldl_max_mem (xs : List Int) (a : Int) :
    xs.foldl max a = a ∨ xs.foldl max a ∈ xs := by
  induction xs generalizing a with
  | nil => exact Or.inl rfl
  | cons x xs ih =>
    rcases ih (max a x) with h | h
    · rcases max_choice a x with hax | hax
      · exact Or.inl (by rw [List.foldl_cons, h, hax])
      · exact Or.inr (by rw [List.foldl_cons, h, hax]; exact List.mem_cons_self x xs)
    · exact Or.inr (List.mem_cons_of_mem x h)

lemma foldl_min_self_le (xs : List Int) (a : Int) : xs.foldl min a ≤ a := by
  induction xs generalizing a with
  | nil => exact le_refl a
  | cons x xs ih => exact le_trans (ih (min a x)) (min_le_left a x)

lemma foldl_min_le_of_mem {y : Int} {xs : List Int} (a : Int) (hy : y ∈ xs) :
    xs.foldl min a ≤ y := by
  induction xs generalizing a with
  | nil => cases hy
  | cons x xs ih =>
    rcases List.mem_cons.1 hy with rfl | hy
    · exact le_trans (foldl_min_self_le xs (min a y)) (min_le_right a y)
    · exact ih (min a x) hy

lemma foldl_min_mem (xs : List Int) (a : Int) :
    xs.foldl min a = a ∨ xs.foldl min a ∈ xs := by
  induction xs generalizing a with
  | nil => exact Or.inl rfl
  | cons x xs ih =>
    rcases ih (min a x) with h | h
    · rcases min_choice a x with hax | hax
      · exact Or.inl (by rw [List.foldl_cons, h, hax])
      · exact Or.inr (by rw [List.foldl_cons, h, hax]; exact List.mem_cons_self x xs)
    · exact Or.inr (List.mem_cons_of_mem x h)

lemma pymax_mem {l : List Int} (hl : l ≠ []) : pymax l ∈ l := by
  cases l with
  | nil => exact absurd rfl hl
  | cons x xs =>
    show xs.foldl max x ∈ x :: xs
    rcases foldl_max_mem xs x with h | h
    · rw [h]; exact List.mem_cons_self x xs
    · exact List.mem_cons_of_mem x h

lemma le_pymax {y : Int} {l : List Int} (hy : y ∈ l) : y ≤ pymax l := by
  cases l with
  | nil => cases hy
  | cons x xs =>
    rcases List.mem_cons.1 hy with rfl | hmem
    · exact foldl_max_le_self xs y
    · exact le_foldl_max_of_mem x hmem

lemma pymin_mem {l : List Int} (hl : l ≠ []) : pymin l ∈ l := by
  cases l with
  | nil => exact absurd rfl hl
  | cons x xs =>
    show xs.foldl min x ∈ x :: xs
    rcases foldl_min_mem xs x with h | h
    · rw [h]; exact List.mem_cons_self x xs
    · exact List.mem_cons_of_mem x h

lemma pymin_le {y : Int} {l : List Int} (hy : y ∈ l) : pymin l ≤ y := by
  cases l with
  | nil => cases hy
  | cons x xs =>
    rcases List.mem_cons.1 hy with rfl | hmem
    · exact foldl_min_self_le xs y
    · exact foldl_min_le_of_mem x hmem

lemma py_index_lt_length {x : Int} {l : List Int} (hx : x ∈ l) :
    py_index x l < l.length := by
  induction l with
  | nil => cases hx
  | cons y ys ih =>
    by_cases hxy : y = x
    · simp [py_index, hxy]
    · have hmem : x ∈ ys := by
        rcases List.mem_cons.1 hx with rfl | hm
        · exact absurd rfl hxy
        · exact hm
      simpa [py_index, hxy] using Nat.succ_lt_succ (ih hmem)

lemma get_py_index {x : Int} {l : List Int} (hx : x ∈ l)
    (hlt : py_index x l < l.length) : l.get ⟨py_index x l, hlt⟩ = x := by
  induction l with
  | nil => cases hx
  | cons y ys ih =>
    by_cases hxy : y = x
    · simp [py_index, hxy]
    · have hmem : x ∈ ys := by
        rcases List.mem_cons.1 hx with rfl | hm
        · exact absurd rfl hxy
        · exact hm
      have hlt' : py_index x ys < ys.length := py_index_lt_length hmem
      have := ih hmem hlt'
      simpa [py_index, hxy] using this

lemma py_index_minimal {x : Int} {l : List Int} :
    ∀ j (hj : j < l.length), j < py_index x l → l.get ⟨j, hj⟩ ≠ x := by
  induction l with
  | nil => intro j hj _; cases hj
  | cons y ys ih =>
    intro j hj hlt
    by_cases hxy : y = x
    · rw [py_index, if_pos hxy] at hlt; cases hlt
    · cases j with
      | zero => simpa using hxy
      | succ j =>
        rw [py_index, if_neg hxy] at hlt
        have hj' : j < ys.length := Nat.lt_of_succ_lt_succ hj
        simpa using ih j hj' (Nat.lt_of_succ_lt_succ hlt)

lemma scoresLoop_length (f : Game → EngineState → Int × EngineState)
    (game : Game) :
    ∀ (moves : List Nat) (st : EngineState),
      (scoresLoop f game moves st).1.length = moves.length := by
  intro moves
  induction moves with
  | nil => intro st; rfl
  | cons m rest ih => intro st; simp [scoresLoop, ih]

/-! ### The evaluator as a sum of per-piece values -/

/-- Modelled from the spec (§4.1): the per-piece value exactly as the spec
words it: `+4` own king, `+1` own regular piece, `-4` opposing king, `-1`
opposing regular piece. -/
def spec_piece_value (perspective : Bool) (p : Piece) : Int :=
  if p.king ∧ p.player = perspective then 4
  else if ¬p.king ∧ p.player = perspective then 1
  else if p.king then -4
  else -1

lemma piece_value_eq (pc : Bool) (p : Piece) :
    (if p.king then (4 : Int) else 1) * (if p.player = pc then 1 else -1)
      = spec_piece_value pc p := by
  rcases p with ⟨pl, k⟩
  cases pl <;> cases k <;> cases pc <;> decide

lemma foldl_add_eq_sum (v : Nat × Piece → Int) (l : List (Nat × Piece))
    (a : Int) : l.foldl (fun s x => s + v x) a = a + (l.map v).sum := by
  induction l generalizing a with
  | nil => simp
  | cons x xs ih => simp [ih, add_assoc]

lemma evaluate_position_fst (position : List (Nat × Piece)) (pc : Bool)
    (st : EngineState) :
    (evaluate_position position pc st).1
      = (position.map (fun fp => spec_piece_value pc fp.2)).sum := by
  show position.foldl
      (fun score fp =>
        score + (if fp.2.king then (4 : Int) else 1)
                  * (if fp.2.player = pc then 1 else -1)) 0 = _
  rw [foldl_add_eq_sum
       (fun fp => (if fp.2.king then (4 : Int) else 1)
                    * (if fp.2.player = pc then 1 else -1)) position 0]
  simp only [piece_value_eq pc, zero_add]

/-- Claim C5: `evaluate_position` returns the sum over occupied cells of +4
for the perspective player's kings, +1 for their regular pieces, -4 for
opposing kings, -1 for opposing regular pieces (empty cells are simply absent
from `position_pieces`, contributing 0); and a position with zero pieces for
either side evaluates to 0. -/
theorem claim_C5 (position : List (Nat × Piece)) (pc : Bool) (st : EngineState) :
    (evaluate_position position pc st).1
      = (position.map (fun fp => spec_piece_value pc fp.2)).sum
    ∧ (evaluate_position ([] : List (Nat × Piece)) pc st).1 = 0 :=
  ⟨evaluate_position_fst position pc st, by
     simpa using evaluate_position_fst [] pc st⟩

lemma spec_piece_value_neg (pc : Bool) (p : Piece) :
    spec_piece_value pc p = -(spec_piece_value (!pc) p) := by
  rcases p with ⟨pl, k⟩
  cases pl <;> cases k <;> cases pc <;> decide

/-- Claim C7: swapping the perspective argument negates the evaluation score
exactly, for every position (the counter side effect is irrelevant to the
returned score, so the two calls may start from any engine states). -/
theorem claim_C7 (position : List (Nat × Piece)) (pc : Bool)
    (st st' : EngineState) :
    (evaluate_position position pc st).1
      = -((evaluate_position position (!pc) st').1) := by
  rw [evaluate_position_fst, evaluate_position_fst]
  induction position with
  | nil => simp
  | cons fp rest ih =>
    simp only [List.map_cons, List.sum_cons, neg_add, ih,
      spec_piece_value_neg pc fp.2]

/-- Claim C3: whenever the hash of the state's FEN is already bound in the
transposition table, `recursive_search` returns the stored score at every
depth and leaves the engine state (table and leaf-evaluation counter)
completely unchanged: no recursion, no evaluation, no table write. -/
theorem claim_C3 (h : String → Nat) (game : Game) (depth : Nat) (pc : Bool)
    (st : EngineState) (v : Int)
    (hhit : List.lookup (h game.get_fen) st.transposition_table = some v) :
    recursive_search h depth game pc st = (v, st) := by
  rw [recursive_search.eq_def]
  simp only [hhit]

/-- Witness for claim C3 at a concrete cached state: the table binds
`gTerm`'s key to 42 and the search returns 42 with the state untouched. -/
theorem claim_C3_witness :
    List.lookup (hh (Game.get_fen gTerm)) stHit.transposition_table = some 42
    ∧ recursive_search hh 5 gTerm true stHit = (42, stHit) :=
  ⟨by decide, claim_C3 hh gTerm 5 true stHit 42 (by decide)⟩

/-- Claim C4: on a table miss with positive depth and zero quiet legal moves,
`recursive_search` returns exactly 100 when `has_player_won(perspective)` is
true and exactly -100 otherwise, with no draw or stalemate distinction (and,
incidentally, without touching the engine state). -/
theorem claim_C4 (h : String → Nat) (game : Game) (d : Nat) (pc : Bool)
    (st : EngineState)
    (hmiss : List.lookup (h game.get_fen) st.transposition_table = none)
    (hempty : (Game.legal_moves game).1 = []) :
    recursive_search h (d + 1) game pc st
      = ((if game.has_player_won pc then 100 else -100), st) := by
  rw [recursive_search.eq_def]
  simp only [hmiss, hempty]
  cases hw : game.has_player_won pc <;> simp [hw]

/-- Witness for claim C4 at the terminal game `gTerm` (no quiet moves, player
`true` has won): depth-3 search returns the terminal score. -/
theorem claim_C4_witness :
    (Game.legal_moves gTerm).1 = []
    ∧ recursive_search hh 3 gTerm true st0
        = ((if Game.has_player_won gTerm true then 100 else -100), st0) :=
  ⟨rfl, claim_C4 hh gTerm 2 true st0 rfl rfl⟩

/-- Claim C1: on a table miss with depth `d + 1 > 0` and at least one quiet
move, `recursive_search` combines the recursively computed child scores
(`scoresLoop` embeds the loop `for move in legal_moves: new_game =
game.copy().push(move); scores.append(recursive_search(new_game, depth-1,
player_color))`, threading the table state left to right) by `max` when the
turn-to-move equals the perspective and by `min` otherwise, stores the
combined result in the table under the state's key, and returns it.  The
extra conjuncts check that `pymax`/`pymin` really are the maximum/minimum of
the child-score list and that the result is retrievable under the key. -/
theorem claim_C1 (h : String → Nat) (game : Game) (d : Nat) (pc : Bool)
    (st : EngineState) (scores : List Int) (st1 : EngineState)
    (hmiss : List.lookup (h game.get_fen) st.transposition_table = none)
    (hmoves : (Game.legal_moves game).1 ≠ [])
    (hloop : scoresLoop (fun g s => recursive_search h d g pc s) game
               (Game.legal_moves game).1 st = (scores, st1)) :
    recursive_search h (d + 1) game pc st
      = ((if game.player_turn = pc then pymax scores else pymin scores),
         { st1 with transposition_table :=
             (h game.get_fen,
              (if game.player_turn = pc then pymax scores else pymin scores))
               :: st1.transposition_table })
    ∧ (if game.player_turn = pc then pymax scores else pymin scores) ∈ scores
    ∧ (game.player_turn = pc → ∀ s ∈ scores, s ≤ pymax scores)
    ∧ (game.player_turn ≠ pc → ∀ s ∈ scores, pymin scores ≤ s)
    ∧ List.lookup (h game.get_fen)
        ((recursive_search h (d + 1) game pc st).2.transposition_table)
      = some (if game.player_turn = pc then pymax scores else pymin scores) := by
  obtain ⟨m, rest, hm⟩ := List.exists_cons_of_ne_nil hmoves
  have hlen : scores.length = (Game.legal_moves game).1.length := by
    have := scoresLoop_length (fun g s => recursive_search h d g pc s) game
      (Game.legal_moves game).1 st
    rw [hloop] at this
    exact this
  have hne : scores ≠ [] := by
    intro hnil
    rw [hnil, hm] at hlen
    simp at hlen
  have hloop' : scoresLoop (fun g s => recursive_search h d g pc s) game
      (m :: rest) st = (scores, st1) := by
    rw [← hm]; exact hloop
  have hmain : recursive_search h (d + 1) game pc st
      = ((if game.player_turn = pc then pymax scores else pymin scores),
         { st1 with transposition_table :=
             (h game.get_fen,
              (if game.player_turn = pc then pymax scores else pymin scores))
               :: st1.transposition_table }) := by
    rw [recursive_search.eq_def]
    simp only [hmiss, hm, hloop']
    split_ifs <;> rfl
  refine ⟨hmain, ?_, ?_, ?_, ?_⟩
  · split_ifs
    · exact pymax_mem hne
    · exact pymin_mem hne
  · intro _ s hs; exact le_pymax hs
  · intro _ s hs; exact pymin_le hs
  · rw [hmain]
    simp [List.lookup]

/-- Witness for claim C1: the game `gOne` has one quiet move whose depth-2
child score is 100; the depth-3 search combines (maximizes, as `gOne`'s turn
is the perspective) and stores the result. -/
theorem claim_C1_witness :
    recursive_search hh 3 gOne true st0
      = ((if Game.player_turn gOne = true then pymax [100] else pymin [100]),
         { st0 with transposition_table :=
             (hh (Game.get_fen gOne),
              (if Game.player_turn gOne = true then pymax [100] else pymin [100]))
               :: st0.transposition_table }) :=
  (claim_C1 hh gOne 2 true st0 [100] st0 rfl (by decide) rfl).1

/-- Claim C6 (amended): when the state's key is not already in the
transposition table, the depth-zero call returns exactly the evaluation of the
position and stores that evaluation under the key.  (As literally stated — for
every ambient table — the claim fails: a table hit returns the stored score
instead; see the counterexample.) -/
theorem claim_C6 (h : String → Nat) (game : Game) (pc : Bool) (st : EngineState)
    (hmiss : List.lookup (h game.get_fen) st.transposition_table = none) :
    (recursive_search h 0 game pc st).1
        = (evaluate_position game.position_pieces pc st).1
    ∧ List.lookup (h game.get_fen)
        ((recursive_search h 0 game pc st).2.transposition_table)
      = some ((evaluate_position game.position_pieces pc st).1) := by
  have hmain : recursive_search h 0 game pc st
      = ((evaluate_position game.position_pieces pc st).1,
         { (evaluate_position game.position_pieces pc st).2 with
             transposition_table :=
               (h game.get_fen,
                (evaluate_position game.position_pieces pc st).1)
                 :: (evaluate_position game.position_pieces pc st).2.transposition_table }) := by
    rw [recursive_search.eq_def]
    simp only [hmiss]
  rw [hmain]
  exact ⟨rfl, by simp [List.lookup]⟩

/-- Counterexample to claim C6 as stated: with the table already binding
`gTerm`'s key to 42, the depth-zero call returns 42, not the evaluation
(which is 1), and stores nothing (the state is returned unchanged). -/
theorem claim_C6_counterexample :
    (recursive_search hh 0 gTerm true stHit).1
        ≠ (evaluate_position (Game.position_pieces gTerm) true stHit).1
    ∧ (recursive_search hh 0 gTerm true stHit).2 = stHit :=
  ⟨by decide, rfl⟩

/-- Witness for claim C6 on a fresh (empty) table. -/
theorem claim_C6_witness :
    List.lookup (hh (Game.get_fen gTerm)) st0.transposition_table = none
    ∧ (recursive_search hh 0 gTerm true st0).1
        = (evaluate_position (Game.position_pieces gTerm) true st0).1
    ∧ List.lookup (hh (Game.get_fen gTerm))
        ((recursive_search hh 0 gTerm true st0).2.transposition_table)
      = some ((evaluate_position (Game.position_pieces gTerm) true st0).1) :=
  ⟨rfl, (claim_C6 hh gTerm true st0 rfl).1, (claim_C6 hh gTerm true st0 rfl).2⟩

/-- Claim C8 (code behaviour at the failing input): invoked on a state with
zero quiet legal moves (`gTerm`), the root driver fails with Python's
`ValueError` (from `max()` on the empty score list); it does not signal the
distinct `NoLegalMoveError` the spec demands — the two errors differ. -/
theorem claim_C8 :
    search hh gTerm st0 = Except.error SearchError.valueError
    ∧ SearchError.valueError ≠ SearchError.noLegalMoveError :=
  ⟨rfl, by decide⟩

/-- Claim C9: if the counter is zero and the table empty when `search` is
entered and the call returns normally, the returned engine state again has a
zero counter and an empty table (the reset on lines 186–187 of the source;
in fact the reset is unconditional, the entry hypotheses merely mirror the
claim's wording). -/
theorem claim_C9 (h : String → Nat) (game : Game) (st : EngineState)
    (m : Nat) (st' : EngineState)
    (_hc : st.counter = 0) (_ht : st.transposition_table = [])
    (hok : search h game st = Except.ok (m, st')) :
    st'.counter = 0 ∧ st'.transposition_table = [] := by
  simp only [search] at hok
  split at hok
  · exact absurd hok (by simp)
  · simp only [Except.ok.injEq, Prod.mk.injEq] at hok
    rw [← hok.2]
    exact ⟨rfl, rfl⟩

/-- Witness for claim C9: on `gOne` the search succeeds and the resulting
state has counter 0 and an empty table. -/
theorem claim_C9_witness :
    st0.counter = 0 ∧ st0.transposition_table = [] :=
  claim_C9 hh gOne st0 5 st0 rfl rfl rfl

/-- Claim C2: with at least one quiet root move, `search` scores every root
successor via `recursive_search` at depth exactly 3 (the `scoresLoop` term
below, embedded from lines 175–178), returns the root move at the first index
attaining the maximal score (index-of-max semantics), and, in particular,
returns the unique move whenever exactly one quiet legal move exists. -/
theorem claim_C2 (h : String → Nat) (game : Game) (st : EngineState)
    (scores : List Int) (st1 : EngineState)
    (hmoves : (Game.legal_moves game).1 ≠ [])
    (hloop : scoresLoop (fun g s => recursive_search h 3 g game.player_turn s)
               game (Game.legal_moves game).1 st = (scores, st1)) :
    (∃ i, ∃ hi : i < (Game.legal_moves game).1.length,
       search h game st
         = Except.ok ((Game.legal_moves game).1.get ⟨i, hi⟩,
             { st1 with counter := 0, transposition_table := [] })
       ∧ ∃ hs : i < scores.length,
           scores.get ⟨i, hs⟩ = pymax scores
         ∧ (∀ j (hj : j < scores.length),
              scores.get ⟨j, hj⟩ = pymax scores → i ≤ j)
         ∧ (∀ s ∈ scores, s ≤ scores.get ⟨i, hs⟩))
    ∧ (∀ m : Nat, (Game.legal_moves game).1 = [m] →
         search h game st
           = Except.ok (m, { st1 with counter := 0, transposition_table := [] })) := by
  have hlen : scores.length = (Game.legal_moves game).1.length := by
    have := scoresLoop_length (fun g s => recursive_search h 3 g game.player_turn s)
      game (Game.legal_moves game).1 st
    rw [hloop] at this
    exact this
  have hne : scores ≠ [] := by
    intro hnil
    rw [hnil] at hlen
    exact hmoves (List.length_eq_zero.1 hlen.symm)
  have hmem : pymax scores ∈ scores := pymax_mem hne
  have hi_scores : py_index (pymax scores) scores < scores.length :=
    py_index_lt_length hmem
  have hi_moves : py_index (pymax scores) scores < (Game.legal_moves game).1.length :=
    hlen ▸ hi_scores
  have hsearch : search h game st
      = Except.ok ((Game.legal_moves game).1.getD (py_index (pymax scores) scores) 0,
          { st1 with counter := 0, transposition_table := [] }) := by
    obtain ⟨s0, stail, hsc⟩ := List.exists_cons_of_ne_nil hne
    simp only [search, hloop]
    rw [hsc]
  refine ⟨⟨py_index (pymax scores) scores, hi_moves, ?_, hi_scores,
      get_py_index hmem hi_scores, ?_, ?_⟩, ?_⟩
  · rw [hsearch, List.getD_eq_getElem _ _ hi_moves]
    rfl
  · intro j hj hjeq
    by_contra hij
    exact py_index_minimal j hj (Nat.lt_of_not_le hij) hjeq
  · intro s hs
    rw [get_py_index hmem hi_scores]
    exact le_pymax hs
  · intro m hm
    have h1 : py_index (pymax scores) scores = 0 := by
      have := hi_moves
      rw [hm] at this
      simpa using this
    rw [hsearch, hm, h1]
    rfl

/-- Witness for claim C2: `gOne` has exactly one quiet legal move (move 5),
and `search` returns it. -/
theorem claim_C2_witness :
    search hh gOne st0
      = Except.ok (5, { st0 with counter := 0, transposition_table := [] }) :=
  (claim_C2 hh gOne st0 [100] st0 (by decide) rfl).2 5 rfl

/-! ### Heap-instrumented embedding for the frame property (claim C10)

The pure embedding above cannot express Python object mutation, so the frame
claim — `search`/`recursive_search` leave the caller's game object unchanged —
is proved over a heap model: games live in a heap (`List Game`) addressed by
object references; `game.copy()` allocates a fresh cell, and `push` mutates in
place the cell it is called on.  The source (lines 157–158 and 175–177) only
ever calls `push` on a fresh copy, and the theorem shows every heap cell that
existed at entry — in particular the caller's — is bytewise unchanged on
exit. -/

/-- The Python object heap: game objects addressed by their index. -/
abbrev Heap := List Game

/-- `game.copy()` in the heap model: allocate a fresh cell holding a deep copy
of the object at `r`, returning the new heap and the fresh reference. -/
def copyH (heap : Heap) (r : Nat) : Heap × Nat :=
  (heap ++ [List.getD heap r default], List.length heap)

/-- `game.push(move)` in the heap model: mutate the object at `r` in place
into its successor after `move`. -/
def pushH (heap : Heap) (r : Nat) (m : Nat) : Heap :=
  List.set heap r ((List.getD heap r default).push m)

/-- The heap version of `scoresLoop`: for each move, `new_game =
game.copy().push(move)` allocates a copy and mutates only that copy, then the
child search runs on the fresh reference. -/
def scoresLoopH (f : Heap → Nat → EngineState → Int × EngineState × Heap)
    (r : Nat) : List Nat → Heap → EngineState → List Int × EngineState × Heap
  | [], heap, st => ([], st, heap)
  | move :: rest, heap, st =>
    let c := copyH heap r
    let heap2 := pushH c.1 c.2 move
    let res := f heap2 c.2 st
    let rs := scoresLoopH f r rest res.2.2 res.2.1
    (res.1 :: rs.1, rs.2.1, rs.2.2)

/-- `Tenxten.recursive_search` over the heap model: identical control flow to
`recursive_search`, with the game read from the heap cell `r` and the mutated
heap threaded through. -/
def recursive_searchH (h : String → Nat) :
    Nat → Heap → Nat → Bool → EngineState → Int × EngineState × Heap
  | depth, heap, r, player_color, st =>
    let game := List.getD heap r default
    let key := h game.get_fen
    match List.lookup key st.transposition_table with
    | some score => (score, st, heap)
    | none =>
      match depth with
      | 0 =>
        let e := evaluate_position game.position_pieces player_color st
        (e.1, { e.2 with transposition_table :=
                  (key, e.1) :: e.2.transposition_table }, heap)
      | d + 1 =>
        match (Game.legal_moves game).1 with
        | [] =>
          if game.has_player_won player_color then (100, st, heap)
          else (-100, st, heap)
        | m :: rest =>
          let r2 := scoresLoopH
                      (fun hp rr s => recursive_searchH h d hp rr player_color s)
                      r (m :: rest) heap st
          if game.player_turn = player_color then
            let max_score := pymax r2.1
            (max_score, { r2.2.1 with transposition_table :=
                            (key, max_score) :: r2.2.1.transposition_table },
             r2.2.2)
          else
            let min_score := pymin r2.1
            (min_score, { r2.2.1 with transposition_table :=
                            (key, min_score) :: r2.2.1.transposition_table },
             r2.2.2)

/-- `Tenxten.search` over the heap model. -/
def searchH (h : String → Nat) (heap : Heap) (r : Nat) (st : EngineState) :
    Except SearchError (Nat × EngineState) × Heap :=
  let game := List.getD heap r default
  let player_color := game.player_turn
  let moves := (Game.legal_moves game).1
  let res := scoresLoopH
               (fun hp rr s => recursive_searchH h 3 hp rr player_color s)
               r moves heap st
  match res.1 with
  | [] => (Except.error SearchError.valueError, res.2.2)
  | _ :: _ =>
    let best_move_index := py_index (pymax res.1) res.1
    let best_move := moves.getD best_move_index 0
    (Except.ok (best_move,
       { res.2.1 with counter := 0, transposition_table := [] }), res.2.2)

lemma getD_set_ne (l : List Game) (r i : Nat) (v : Game) (hne : i ≠ r) :
    (l.set r v).getD i default = l.getD i default := by
  induction l generalizing r i with
  | nil => rfl
  | cons x xs ih =>
    cases r with
    | zero =>
      cases i with
      | zero => exact absurd rfl hne
      | succ i => simp
    | succ r =>
      cases i with
      | zero => simp
      | succ i =>
        simp only [List.set_cons_succ, List.getD_cons_succ]
        exact ih r i (fun hri => hne (by rw [hri]))

lemma scoresLoopH_frame
    (f : Heap → Nat → EngineState → Int × EngineState × Heap)
    (hf : ∀ (heap : Heap) (r : Nat) (st : EngineState),
        List.length heap ≤ List.length (f heap r st).2.2
      ∧ ∀ i, i < List.length heap →
          List.getD (f heap r st).2.2 i default = List.getD heap i default) :
    ∀ (moves : List Nat) (r : Nat) (heap : Heap) (st : EngineState),
      List.length heap ≤ List.length (scoresLoopH f r moves heap st).2.2
      ∧ ∀ i, i < List.length heap →
          List.getD (scoresLoopH f r moves heap st).2.2 i default
            = List.getD heap i default := by
  intro moves
  induction moves with
  | nil => intro r heap st; exact ⟨le_refl _, fun i _ => rfl⟩
  | cons mv rest ih =>
    intro r heap st
    simp only [scoresLoopH, copyH, pushH]
    have h1len : List.length ((heap ++ [List.getD heap r default]))
        = List.length heap + 1 := by simp
    have h2len : List.length
        (List.set ((heap ++ [List.getD heap r default]))
          (List.length heap)
          ((List.getD ((heap ++ [List.getD heap r default]))
              (List.length heap) default).push mv))
        = List.length heap + 1 := by simp
    have hfr := hf
      (List.set ((heap ++ [List.getD heap r default]))
        (List.length heap)
        ((List.getD ((heap ++ [List.getD heap r default]))
            (List.length heap) default).push mv))
      (List.length heap) st
    have ihr := ih r
      ((f (List.set ((heap ++ [List.getD heap r default]))
            (List.length heap)
            ((List.getD ((heap ++ [List.getD heap r default]))
                (List.length heap) default).push mv))
          (List.length heap) st).2.2)
      ((f (List.set ((heap ++ [List.getD heap r default]))
            (List.length heap)
            ((List.getD ((heap ++ [List.getD heap r default]))
                (List.length heap) default).push mv))
          (List.length heap) st).2.1)
    constructor
    · calc List.length heap
          ≤ List.length heap + 1 := Nat.le_succ _
        _ = _ := h2len.symm
        _ ≤ _ := hfr.1
        _ ≤ _ := ihr.1
    · intro i hi
      have hi2 : i < List.length
          (List.set ((heap ++ [List.getD heap r default]))
            (List.length heap)
            ((List.getD ((heap ++ [List.getD heap r default]))
                (List.length heap) default).push mv)) := by
        rw [h2len]; exact Nat.lt_succ_of_lt hi
      have hi3 : i < List.length
          ((f (List.set ((heap ++ [List.getD heap r default]))
                (List.length heap)
                ((List.getD ((heap ++ [List.getD heap r default]))
                    (List.length heap) default).push mv))
              (List.length heap) st).2.2) :=
        Nat.lt_of_lt_of_le hi2 hfr.1
      rw [ihr.2 i hi3, hfr.2 i hi2,
        getD_set_ne _ _ _ _ (Nat.ne_of_lt hi),
        List.getD_append _ _ _ _ hi]

lemma recursive_searchH_frame (h : String → Nat) :
    ∀ (depth : Nat) (heap : Heap) (r : Nat) (pc : Bool) (st : EngineState),
      List.length heap ≤ List.length (recursive_searchH h depth heap r pc st).2.2
      ∧ ∀ i, i < List.length heap →
          List.getD (recursive_searchH h depth heap r pc st).2.2 i default
            = List.getD heap i default := by
  intro depth
  induction depth with
  | zero =>
    intro heap r pc st
    rw [recursive_searchH.eq_def]
    dsimp only
    split
    · exact ⟨le_refl _, fun i _ => rfl⟩
    · exact ⟨le_refl _, fun i _ => rfl⟩
  | succ d ih =>
    intro heap r pc st
    rw [recursive_searchH.eq_def]
    dsimp only
    split
    · exact ⟨le_refl _, fun i _ => rfl⟩
    · split
      · split_ifs <;> exact ⟨le_refl _, fun i _ => rfl⟩
      · rename_i mv rest heq
        have hsl := scoresLoopH_frame
          (fun hp rr s => recursive_searchH h d hp rr pc s)
          (fun hp rr s => ih hp rr pc s) (mv :: rest) r heap st
        split_ifs <;> exact hsl

theorem claim_C10 :
    (∀ (h : String → Nat) (depth : Nat) (heap : Heap) (r : Nat) (pc : Bool)
       (st : EngineState) (i : Nat), i < List.length heap →
       List.getD (recursive_searchH h depth heap r pc st).2.2 i default
         = List.getD heap i default)
    ∧ (∀ (h : String → Nat) (heap : Heap) (r : Nat) (st : EngineState)
       (i : Nat), i < List.length heap →
       List.getD (searchH h heap r st).2 i default = List.getD heap i default) := by
  constructor
  · intro h depth heap r pc st i hi
    exact (recursive_searchH_frame h depth heap r pc st).2 i hi
  · intro h heap r st i hi
    have hsl := scoresLoopH_frame
      (fun hp rr s => recursive_searchH h 3 hp rr
        (Game.player_turn (List.getD heap r default)) s)
      (fun hp rr s => recursive_searchH_frame h 3 hp rr
        (Game.player_turn (List.getD heap r default)) s)
      (Game.legal_moves (List.getD heap r default)).1 r heap st
    simp only [searchH]
    split <;> exact hsl.2 i hi

theorem claim_C10_witness :
    0 < List.length ([gOne] : Heap)
    ∧ List.getD (recursive_searchH hh 3 [gOne] 0 true st0).2.2 0 default
        = List.getD ([gOne] : Heap) 0 default
    ∧ List.getD (searchH hh [gOne] 0 st0).2 0 default
        = List.getD ([gOne] : Heap) 0 default :=
  ⟨by decide, claim_C10.1 hh 3 [gOne] 0 true st0 0 (by decide),
   claim_C10.2 hh [gOne] 0 st0 0 (by decide)⟩
